import Mathlib

/-!
Shallow embedding of the decision core of the snakepit number robot
(`src/robots/number.py`, class `NumberRobotSnake`), together with proofs of
the specification claims about it.

Machine model conventions:
* Python ints are `ℤ` (coordinates) or `ℕ` (sizes, lengths).
* Python floats produced by `free_room` and `compute_score` are modelled as
  `ℚ`; for the magnitudes that occur (small integer numerators and
  denominators) Python float division is exact enough that every comparison
  against `1.0` and every max comparison agrees with the rational value.
* The `random.choice` / `random.shuffle` calls are modelled by explicit
  order parameters (`coin`, a direction list) universally quantified in the
  theorems.
* The `functools.lru_cache` on `is_block` memoizes a pure function of the
  world snapshot, so it is modelled by the pure function itself.
-/

namespace Snakepit

/-! Definitions: the data model and the embedded operations, followed by
the concrete world snapshots used by witnesses and counterexamples. -/
/-- `Position` from `snakepit.datatypes`: an integer (x, y) pair.
Modelled from the spec: the datatypes module is not under `src/`; the spec
describes a Coordinate as an immutable integer (x, y) pair compared by
value (a Python namedtuple, hence ordered lexicographically by (x, y)). -/
structure Pos where
  x : ℤ
  y : ℤ
deriving DecidableEq

/-- `Vector` from `snakepit.datatypes`: an (xdir, ydir) offset.
Modelled from the spec: a Direction is one of four unit vectors, each with
an integer (dx, dy) offset of magnitude 1 on exactly one axis; a namedtuple,
hence ordered lexicographically by (xdir, ydir). -/
structure Vec where
  xdir : ℤ
  ydir : ℤ
deriving DecidableEq

/-- Modelled from the spec: the `UP` direction, the unit vector that
decreases the y coordinate (the planner chooses `UP` when the target's y is
smaller than the current y). -/
def UP : Vec := ⟨0, -1⟩

/-- Modelled from the spec: the `DOWN` direction (y increases). -/
def DOWN : Vec := ⟨0, 1⟩

/-- Modelled from the spec: the `LEFT` direction (x decreases). -/
def LEFT : Vec := ⟨-1, 0⟩

/-- Modelled from the spec: the `RIGHT` direction (x increases). -/
def RIGHT : Vec := ⟨1, 0⟩

/-- Modelled from the spec: `DIRECTIONS`, the four unit vectors.  The base
class's iteration order is not visible in `src/`; every use of the order in
the robot is either randomized (`backup`) or order-insensitive (flood
fill), so a fixed enumeration is faithful. -/
def DIRECTIONS : List Vec := [UP, DOWN, LEFT, RIGHT]

/-- Moving a position by a direction vector:
`Position(p.x + d.xdir, p.y + d.ydir)` as built throughout `number.py`. -/
def move (p : Pos) (d : Vec) : Pos := ⟨p.x + d.xdir, p.y + d.ydir⟩

/-- `NumberRobotSnake.distance`: Manhattan distance. -/
def dist (a b : Pos) : ℕ := (a.x - b.x).natAbs + (a.y - b.y).natAbs

/-- Cell contents of one world cell, the `(char, color)` pair.
Modelled from the spec: the symbol set {empty, stone, head, body, tail,
dead-body, digits 0–9}; head/body/tail segments carry the owning agent's
color, other symbols carry no owner. -/
inductive Cell where
  | void : Cell
  | stone : Cell
  | head (color : ℕ) : Cell
  | body (color : ℕ) : Cell
  | tail (color : ℕ) : Cell
  | dead : Cell
  | digit (d : Fin 10) : Cell
deriving DecidableEq

/-- The immutable world snapshot for one decision cycle: grid dimensions
and the cell lookup `world[y][x]` (total here; the Python code only indexes
in bounds, after `is_block`'s bounds test). -/
structure World where
  SIZE_X : ℕ
  SIZE_Y : ℕ
  cell : ℤ → ℤ → Cell

/-- Membership of a cell symbol in `self.BLOCKS = {CH_STONE} | BODY_CHARS |
DEAD_BODY_CHARS` (line 41).  Modelled from the spec: the blocked-set is
stone, any live body segment (self or foreign), and dead-body debris;
empty cells and reward digits are passable. -/
def isBlockChar : Cell → Bool
  | Cell.void => false
  | Cell.stone => true
  | Cell.head _ => true
  | Cell.body _ => true
  | Cell.tail _ => true
  | Cell.dead => true
  | Cell.digit _ => false

/-- In-bounds predicate: `0 ≤ x < SIZE_X ∧ 0 ≤ y < SIZE_Y`. -/
def inBoundsP (w : World) (p : Pos) : Prop :=
  0 ≤ p.x ∧ p.x < (w.SIZE_X : ℤ) ∧ 0 ≤ p.y ∧ p.y < (w.SIZE_Y : ℤ)

instance (w : World) (p : Pos) : Decidable (inBoundsP w p) := by
  unfold inBoundsP; infer_instance

/-- `NumberRobotSnake.is_block` (lines 44–49): out-of-bounds is blocked,
otherwise the cell's char is looked up in `BLOCKS`.  The `lru_cache` memoizes
a pure function of the snapshot, so the pure function models it. -/
def isBlock (w : World) (p : Pos) : Bool :=
  if p.x < 0 ∨ p.x ≥ (w.SIZE_X : ℤ) ∨ p.y < 0 ∨ p.y ≥ (w.SIZE_Y : ℤ) then true
  else isBlockChar (w.cell p.y p.x)

/-- The finset of in-bounds positions. -/
def boundsF (w : World) : Finset Pos :=
  ((Finset.range w.SIZE_X) ×ˢ (Finset.range w.SIZE_Y)).image
    (fun q => Pos.mk (q.1 : ℤ) (q.2 : ℤ))

/-- The finset of open (non-blocked, hence in-bounds) positions. -/
def openF (w : World) : Finset Pos :=
  (boundsF w).filter (fun p => isBlock w p = false)

/-- The four neighbor positions of `p`, in `DIRECTIONS` order, as pushed by
`flood_fill`'s inner loop (lines 110–113). -/
def neighbors (p : Pos) : List Pos := DIRECTIONS.map (move p)

/-- One step of `NumberRobotSnake.flood_fill` (lines 100–114), with explicit
fuel.  The Python worklist `points_to_check` is LIFO (`list.pop()` from the
end, `append` to the end); here the stack top is the list head, which is the
same discipline up to traversal order — the set and number of yielded cells,
the only observations the robot makes, are unaffected.  Exactly as in the
source, a popped cell already in `done` is dropped, a popped blocked cell is
dropped *without* being added to `done` (the `continue` skips `done.add`),
and a popped open new cell is yielded, its neighbors not in `done` are
pushed, and it joins `done`. -/
def floodAux (w : World) : ℕ → List Pos → Finset Pos → List Pos
  | 0, _, _ => []
  | _ + 1, [], _ => []
  | fuel + 1, cp :: rest, done =>
    if cp ∈ done then floodAux w fuel rest done
    else if isBlock w cp then floodAux w fuel rest done
    else cp :: floodAux w fuel (((neighbors cp).filter (fun n => n ∉ done)) ++ rest)
      (insert cp done)

/-- Fuel that always suffices to run `flood_fill` to completion: each open
cell is expanded at most once and pushes at most four neighbors (see
`floodAux_spec`). -/
def floodFuel (w : World) : ℕ := 5 * (w.SIZE_X * w.SIZE_Y) + 1

/-- The full yield sequence of `flood_fill(point)`: the generator run to
exhaustion.  `free_room` only consumes a prefix of it, which does not change
the values computed (see `freeRoom`). -/
def floodList (w : World) (point : Pos) : List Pos :=
  floodAux w (floodFuel w) [point] ∅

/-- `NumberRobotSnake.free_room` (lines 117–123) generalized over the limit
(the source always passes `self.length`): counts flood-fill yields, returns
1.0 as soon as the count reaches the limit, else count/limit.  Incremental
consumption of the generator with early exit yields exactly this value.
The quotient is built with `Rat.divInt` (the exact rational `points/length`,
equal to the field division — see `divInt_natCast_eq_div`) so that concrete
instances evaluate.
(When `length = 0` and the start is blocked the Python code divides 0 by 0;
no caller reaches that combination — every call site either has a non-blocked
start or, via `next_direction`, a positive length.) -/
def freeRoom (w : World) (length : ℕ) (point : Pos) : ℚ :=
  if length ≤ (floodList w point).length then 1
  else Rat.divInt ((floodList w point).length : ℤ) (length : ℤ)

/-- The cells `flood_fill(start)` is specified to visit: `start` is open and
the cell is connected to `start` through open 4-adjacent cells. -/
def OpenReach (w : World) (start q : Pos) : Prop :=
  isBlock w start = false ∧
    Relation.ReflTransGen (fun a b => isBlock w b = false ∧ dist a b = 1) start q

/-- The direction choice of one `get_to` iteration (lines 71–86): from
`dx = cx - target.x`, `dy = cy - target.y`, the preferred direction and the
backup direction set (given as a list; its traversal order is randomized by
`iter_directions`, see `arrange`). -/
def chooseDirs (dx dy : ℤ) : Vec × List Vec :=
  if dx = 0 then (if dy > 0 then UP else DOWN, [RIGHT, LEFT])
  else if dy = 0 then (if dx > 0 then LEFT else RIGHT, [UP, DOWN])
  else if |dx| > |dy| then (if dx > 0 then LEFT else RIGHT, [if dy > 0 then UP else DOWN])
  else (if dy > 0 then UP else DOWN, [if dx > 0 then LEFT else RIGHT])

/-- `iter_directions`' random draws without replacement from the backup set
(lines 52–57): the sets have at most two elements, so one boolean per
iteration selects the traversal order.  Theorems quantify over the coin. -/
def arrange (b : Bool) (l : List Vec) : List Vec := if b then l else l.reverse

/-- The acceptance test of `get_to`'s inner loop (line 90): the step's
destination is not blocked, not already part of the plan being built, and
has full reachable fraction.  The Python `or` short-circuits, matching
`||`. -/
def accepts (w : World) (length : ℕ) (plan : List Pos) (next : Pos) : Bool :=
  !(isBlock w next || plan.contains next || decide (freeRoom w length next < 1))

/-- The `for direction in self.iter_directions(...)` search (lines 88–95):
the first direction in trial order whose destination is accepted, together
with that destination. -/
def firstAccepted (w : World) (length : ℕ) (plan : List Pos) (c : Pos) :
    List Vec → Option (Vec × Pos)
  | [] => none
  | d :: rest =>
    if accepts w length plan (move c d) then some (d, move c d)
    else firstAccepted w length plan c rest

/-- Outcome of `get_to`: a finished plan (the `plan`/`plan_directions`
deques), the `CannotContinue` exception, or fuel exhaustion — the last is a
modelling artifact that provably never occurs with `get_to`'s fuel
(`getTo_not_outOfFuel`). -/
inductive PlanResult where
  | plan (ps : List Pos) (ds : List Vec) : PlanResult
  | cannotContinue : PlanResult
  | outOfFuel : PlanResult
deriving DecidableEq

/-- The `while` loop of `NumberRobotSnake.get_to` (lines 68–97), with the
simulated current position `c`, the plan built so far, and fuel. -/
def getToAux (w : World) (length : ℕ) (coin : ℕ → Bool) (target : Pos) :
    ℕ → Pos → List Pos → List Vec → PlanResult
  | 0, _, _, _ => PlanResult.outOfFuel
  | fuel + 1, c, plan, dirs =>
    if c = target then PlanResult.plan plan dirs
    else
      match firstAccepted w length plan c
        ((chooseDirs (c.x - target.x) (c.y - target.y)).1 ::
          arrange (coin plan.length) (chooseDirs (c.x - target.x) (c.y - target.y)).2) with
      | some (d, next) => getToAux w length coin target fuel next (plan ++ [next]) (dirs ++ [d])
      | none => PlanResult.cannotContinue

/-- `NumberRobotSnake.get_to(point)` (lines 60–97), starting from the
head with cleared plan deques.  Fuel `SIZE_X * SIZE_Y + 1` always suffices
(`getTo_not_outOfFuel`): every iteration appends a fresh in-bounds cell. -/
def getTo (w : World) (length : ℕ) (head : Pos) (coin : ℕ → Bool) (target : Pos) :
    PlanResult :=
  getToAux w length coin target (w.SIZE_X * w.SIZE_Y + 1) head [] []

/-- The agent snapshot rebuilt by `get_position` each cycle. -/
structure AgentState where
  head : Pos
  tail : Pos
  body : List Pos
  length : ℕ
deriving DecidableEq

/-- Row-major scan order of `get_position` and `find_best` (outer loop over
`y`, inner over `x`). -/
def scanPositions (w : World) : List Pos :=
  (List.range w.SIZE_Y).flatMap (fun (y : ℕ) => (List.range w.SIZE_X).map
    (fun (x : ℕ) => Pos.mk (x : ℤ) (y : ℤ)))

/-- One cell visit of `get_position` (lines 129–142): cells whose color is
ours update tail/head when they carry the respective char and always join
the body list and the length count. -/
def getPositionStep (w : World) (color : ℕ) (st : AgentState) (p : Pos) : AgentState :=
  match w.cell p.y p.x with
  | Cell.tail c =>
    if c = color then { st with tail := p, body := st.body ++ [p], length := st.length + 1 }
    else st
  | Cell.head c =>
    if c = color then { st with head := p, body := st.body ++ [p], length := st.length + 1 }
    else st
  | Cell.body c =>
    if c = color then { st with body := st.body ++ [p], length := st.length + 1 }
    else st
  | _ => st

/-- `NumberRobotSnake.get_position` (lines 126–144).  The fold starts from
the constructor state (head and tail `Position(0, 0)`, empty body, length
0), which is what a fresh instance holds when the scan finds no own cells. -/
def getPosition (w : World) (color : ℕ) : AgentState :=
  (scanPositions w).foldl (getPositionStep w color) ⟨⟨0, 0⟩, ⟨0, 0⟩, [], 0⟩

/-- The digit at a cell, when the in-bounds cell holds a reward digit
(`char in string.digits`, line 160). -/
def digitAt (w : World) (p : Pos) : Option (Fin 10) :=
  if inBoundsP w p then
    match w.cell p.y p.x with
    | Cell.digit d => some d
    | _ => none
  else none

/-- `compute_score` (lines 151–152) applied to a candidate cell:
bonus/distance as an exact rational (`0` at the out-of-model division by
zero, which `find_best` surfaces as an exception instead — see `findBest`). -/
def scoreOf (w : World) (head p : Pos) : ℚ :=
  match digitAt w p with
  | some d => (d : ℚ) / (dist head p : ℚ)
  | none => 0

/-- Python's `max` over a list: fold that replaces the current maximum
exactly when the next element is strictly greater; `none` on the empty list
(the `ValueError` branch). -/
def pyMaxBy (lt : α → α → Prop) [DecidableRel lt] : List α → Option α
  | [] => none
  | x :: rest => some (rest.foldl (fun m y => if lt m y then y else m) x)

/-- Lexicographic order of Python tuples `(score, Position)`. -/
def scorePosLt (a b : ℚ × Pos) : Prop :=
  a.1 < b.1 ∨ (a.1 = b.1 ∧ (a.2.x < b.2.x ∨ (a.2.x = b.2.x ∧ a.2.y < b.2.y)))

instance : DecidableRel scorePosLt := by
  unfold scorePosLt; intro a b; infer_instance

/-- The `points` list of `find_best` (lines 156–163): `(score, point)` for
every digit cell, in scan order. -/
def findBestCands (w : World) (head : Pos) : List (ℚ × Pos) :=
  (scanPositions w).filterMap (fun p =>
    match w.cell p.y p.x with
    | Cell.digit d => some (Rat.divInt ((d : ℕ) : ℤ) ((dist head p : ℕ) : ℤ), p)
    | _ => none)

/-- `NumberRobotSnake.find_best` (lines 155–169): collect `(score, point)`
for every digit cell in scan order, then `max`.  Building the list calls
`compute_score(int(char), distance)`, which raises `ZeroDivisionError`
(uncaught — the `except` clause only catches `max`'s `ValueError`) whenever
some digit cell coincides with the head; that exception is the `.error`
case. -/
def findBest (w : World) (head : Pos) : Except Unit (Option Pos) :=
  if (findBestCands w head).any (fun sp => dist head sp.2 = 0) then Except.error ()
  else Except.ok ((pyMaxBy scorePosLt (findBestCands w head)).map (fun sp => sp.2))

/-- Lexicographic order of Python tuples `(free_room, Vector)` used by the
`max` in `backup` (line 185). -/
def frVecLt (a b : ℚ × Vec) : Prop :=
  a.1 < b.1 ∨ (a.1 = b.1 ∧ (a.2.xdir < b.2.xdir ∨ (a.2.xdir = b.2.xdir ∧ a.2.ydir < b.2.ydir)))

instance : DecidableRel frVecLt := by
  unfold frVecLt; intro a b; infer_instance

/-- The loop of `NumberRobotSnake.backup` (lines 175–187) over the shuffled
direction list, carrying the `unblocked` accumulator. -/
def backupGo (w : World) (length : ℕ) (head : Pos) :
    List Vec → List (ℚ × Vec) → Option Vec
  | [], unblocked => (pyMaxBy frVecLt unblocked).map (fun fd => fd.2)
  | d :: rest, unblocked =>
    if isBlock w (move head d) then backupGo w length head rest unblocked
    else
      if freeRoom w length (move head d) = 1 then some d
      else backupGo w length head rest (unblocked ++ [(freeRoom w length (move head d), d)])

/-- `NumberRobotSnake.backup` (lines 171–187): `ds` is the shuffled copy of
`DIRECTIONS`; theorems quantify over all permutations. -/
def backup (w : World) (length : ℕ) (head : Pos) (ds : List Vec) : Option Vec :=
  backupGo w length head ds []

/-- Lines 196–204 of `next_direction`: run `get_to` toward the selected
target; on `CannotContinue` fall back to `backup()`; else return the first
planned direction, or `backup()` when the plan is empty.  The `outOfFuel`
branch is unreachable (`getTo_not_outOfFuel`). -/
def afterTarget (w : World) (length : ℕ) (head : Pos) (coin : ℕ → Bool)
    (ds : List Vec) (best : Pos) : Option Vec :=
  match getTo w length head coin best with
  | PlanResult.cannotContinue => backup w length head ds
  | PlanResult.plan _ dirs =>
    match dirs with
    | d :: _ => some d
    | [] => backup w length head ds
  | PlanResult.outOfFuel => none

/-- `NumberRobotSnake.next_direction` (lines 190–204).  The cache clear is
a no-op for the pure `isBlock`.  The `.error` case is the uncaught
`ZeroDivisionError` out of `find_best` (a digit cell under the recorded
head); `CannotContinue` never escapes. -/
def nextDirection (w : World) (color : ℕ) (coin : ℕ → Bool) (ds : List Vec) :
    Except Unit (Option Vec) :=
  match findBest w (getPosition w color).head with
  | Except.error e => Except.error e
  | Except.ok none =>
    Except.ok (backup w (getPosition w color).length (getPosition w color).head ds)
  | Except.ok (some best) =>
    Except.ok (afterTarget w (getPosition w color).length (getPosition w color).head
      coin ds best)

/-- 10×10 grid, empty except our head at (5,5) and a reward digit 9 at
(5,2) — the straight-line planning scenario. -/
def w9 : World :=
  { SIZE_X := 10, SIZE_Y := 10,
    cell := fun y x =>
      if y = 5 ∧ x = 5 then Cell.head 0
      else if y = 2 ∧ x = 5 then Cell.digit 9
      else Cell.void }

/-- 5×5 grid: our head at (2,2) walled in by stone on all four sides, a
digit 9 at (4,4) — target selection succeeds, planning fails at once. -/
def wTrap : World :=
  { SIZE_X := 5, SIZE_Y := 5,
    cell := fun y x =>
      if y = 2 ∧ x = 2 then Cell.head 0
      else if (y = 2 ∧ x = 1) ∨ (y = 2 ∧ x = 3) ∨ (y = 1 ∧ x = 2) ∨ (y = 3 ∧ x = 2) then
        Cell.stone
      else if y = 4 ∧ x = 4 then Cell.digit 9
      else Cell.void }

/-- 3×3 grid: our head at (1,1) fully enclosed by stone. -/
def wEnclosed : World :=
  { SIZE_X := 3, SIZE_Y := 3,
    cell := fun y x =>
      if y = 1 ∧ x = 1 then Cell.head 0
      else if (y = 1 ∧ x = 0) ∨ (y = 1 ∧ x = 2) ∨ (y = 0 ∧ x = 1) ∨ (y = 2 ∧ x = 1) then
        Cell.stone
      else Cell.void }

/-- 3×3 grid: our head at (0,0), one stone at (2,2) — a blocked
`free_room` start with agent length 1. -/
def wStone : World :=
  { SIZE_X := 3, SIZE_Y := 3,
    cell := fun y x =>
      if y = 0 ∧ x = 0 then Cell.head 0
      else if y = 2 ∧ x = 2 then Cell.stone
      else Cell.void }

/-- 10×10 grid: our head at (4,4), a digit 3 at distance 1 (position
(4,5)) and a digit 9 at distance 5 (position (4,9)). -/
def wTwoRewards : World :=
  { SIZE_X := 10, SIZE_Y := 10,
    cell := fun y x =>
      if y = 4 ∧ x = 4 then Cell.head 0
      else if y = 5 ∧ x = 4 then Cell.digit 3
      else if y = 9 ∧ x = 4 then Cell.digit 9
      else Cell.void }

/-- 3×3 grid, empty except our head at (0,0). -/
def wOpen : World :=
  { SIZE_X := 3, SIZE_Y := 3,
    cell := fun y x =>
      if y = 0 ∧ x = 0 then Cell.head 0
      else Cell.void }

/-- 1×1 grid holding a single empty cell. -/
def wUnit : World :=
  { SIZE_X := 1, SIZE_Y := 1, cell := fun _ _ => Cell.void }

deriving instance DecidableEq for Except

/-! Theorems: helper lemmas first, then the claim theorems C1 to C10 with
their witnesses and counterexamples. -/
theorem inBoundsP_of_isBlock_false {w : World} {p : Pos} (h : isBlock w p = false) :
    inBoundsP w p := by
  unfold isBlock at h
  unfold inBoundsP
  by_contra hc
  simp only [inBoundsP, not_and_or, not_le, not_lt] at hc
  have : (p.x < 0 ∨ p.x ≥ (w.SIZE_X : ℤ) ∨ p.y < 0 ∨ p.y ≥ (w.SIZE_Y : ℤ)) := by
    rcases hc with h1 | h2 | h3 | h4
    · exact Or.inl h1
    · exact Or.inr (Or.inl h2)
    · exact Or.inr (Or.inr (Or.inl h3))
    · exact Or.inr (Or.inr (Or.inr h4))
  rw [if_pos this] at h
  exact Bool.true_eq_false.mp h

theorem mem_boundsF {w : World} {p : Pos} : p ∈ boundsF w ↔ inBoundsP w p := by
  cases p with
  | mk px py =>
    unfold boundsF inBoundsP
    simp only [Finset.mem_image, Finset.mem_product, Finset.mem_range, Pos.mk.injEq]
    constructor
    · rintro ⟨⟨a, b⟩, ⟨ha, hb⟩, hx, hy⟩
      simp only at hx hy
      subst hx; subst hy
      refine ⟨by positivity, ?_, by positivity, ?_⟩
      · exact_mod_cast ha
      · exact_mod_cast hb
    · rintro ⟨h1, h2, h3, h4⟩
      refine ⟨⟨px.toNat, py.toNat⟩, ⟨?_, ?_⟩, ?_, ?_⟩ <;> simp only [] <;> omega

theorem card_boundsF (w : World) : (boundsF w).card = w.SIZE_X * w.SIZE_Y := by
  unfold boundsF
  rw [Finset.card_image_of_injOn]
  · simp [Finset.card_product]
  · intro a _ b _ hab
    simp only [Pos.mk.injEq] at hab
    obtain ⟨h1, h2⟩ := hab
    exact Prod.ext (by exact_mod_cast h1) (by exact_mod_cast h2)

theorem mem_openF {w : World} {p : Pos} :
    p ∈ openF w ↔ isBlock w p = false := by
  unfold openF
  simp only [Finset.mem_filter, and_iff_right_iff_imp]
  intro h
  exact mem_boundsF.mpr (inBoundsP_of_isBlock_false h)

theorem card_openF_le (w : World) : (openF w).card ≤ w.SIZE_X * w.SIZE_Y := by
  calc (openF w).card ≤ (boundsF w).card := Finset.card_filter_le _ _
    _ = w.SIZE_X * w.SIZE_Y := card_boundsF w

theorem dist_move_of_mem_DIRECTIONS {d : Vec} (h : d ∈ DIRECTIONS) (p : Pos) :
    dist p (move p d) = 1 := by
  unfold DIRECTIONS at h
  unfold dist move UP DOWN LEFT RIGHT at *
  fin_cases h <;> simp

theorem mem_neighbors_iff_dist {p q : Pos} : q ∈ neighbors p ↔ dist p q = 1 := by
  unfold neighbors DIRECTIONS move UP DOWN LEFT RIGHT dist
  constructor
  · intro h
    fin_cases h <;> simp
  · intro h
    have hx : (p.x - q.x).natAbs + (p.y - q.y).natAbs = 1 := h
    simp only [List.map_cons, List.map_nil, List.mem_cons, List.not_mem_nil, or_false]
    cases p with
    | mk px py =>
      cases q with
      | mk qx qy =>
        simp only [Pos.mk.injEq] at *
        omega

theorem OpenReach.refl_of_open {w : World} {start : Pos}
    (h : isBlock w start = false) : OpenReach w start start :=
  ⟨h, Relation.ReflTransGen.refl⟩

theorem OpenReach.open_of {w : World} {start q : Pos} (h : OpenReach w start q) :
    isBlock w q = false := by
  obtain ⟨hs, hr⟩ := h
  induction hr with
  | refl => exact hs
  | tail _ hstep ih => exact hstep.1

theorem OpenReach.step {w : World} {start p q : Pos} (h : OpenReach w start p)
    (hq : isBlock w q = false) (hadj : dist p q = 1) : OpenReach w start q :=
  ⟨h.1, h.2.tail ⟨hq, hadj⟩⟩

/-- Main flood-fill invariant lemma: given the worklist/`done` invariants and
enough fuel, the run yields a duplicate-free list of fresh cells, every yield
is open and reachable, and every reachable open cell is already in `done` or
gets yielded. -/
theorem floodAux_spec (w : World) (start : Pos) :
    ∀ (fuel : ℕ) (stack : List Pos) (done : Finset Pos),
    (∀ d ∈ done, isBlock w d = false) →
    (∀ d ∈ done, ∀ n ∈ neighbors d, isBlock w n = false → n ∈ done ∨ n ∈ stack) →
    (∀ d ∈ done, OpenReach w start d) →
    (∀ p ∈ stack, isBlock w p = false → OpenReach w start p) →
    (isBlock w start = false → start ∈ done ∨ start ∈ stack) →
    5 * (openF w).card + stack.length ≤ fuel + 5 * done.card →
    (floodAux w fuel stack done).Nodup ∧
    (∀ q ∈ floodAux w fuel stack done, q ∉ done) ∧
    (∀ q ∈ floodAux w fuel stack done, OpenReach w start q) ∧
    (∀ q, OpenReach w start q → q ∈ done ∨ q ∈ floodAux w fuel stack done) := by
  intro fuel
  induction fuel with
  | zero =>
    intro stack done h0 h1 h2 h3 h4 hfuel
    cases stack with
    | cons cp rest =>
      exfalso
      have hsub : done ⊆ openF w := by
        intro d hd
        exact mem_openF.mpr (h0 d hd)
      have := Finset.card_le_card hsub
      simp only [List.length_cons] at hfuel
      omega
    | nil =>
      refine ⟨by simp [floodAux], by simp [floodAux], by simp [floodAux], ?_⟩
      intro q hq
      left
      have hstart : start ∈ done := by
        rcases h4 hq.1 with h | h
        · exact h
        · exact absurd h (List.not_mem_nil start)
      obtain ⟨hs, hr⟩ := hq
      induction hr with
      | refl => exact hstart
      | tail hr1 hstep ih =>
        rename_i b c
        have hb : b ∈ done := ih
        have hc := h1 b hb c (mem_neighbors_iff_dist.mpr hstep.2) hstep.1
        rcases hc with h | h
        · exact h
        · exact absurd h (List.not_mem_nil c)
  | succ fuel ih =>
    intro stack done h0 h1 h2 h3 h4 hfuel
    cases stack with
    | nil =>
      refine ⟨by simp [floodAux], by simp [floodAux], by simp [floodAux], ?_⟩
      intro q hq
      left
      have hstart : start ∈ done := by
        rcases h4 hq.1 with h | h
        · exact h
        · exact absurd h (List.not_mem_nil start)
      obtain ⟨hs, hr⟩ := hq
      induction hr with
      | refl => exact hstart
      | tail hr1 hstep ih2 =>
        rename_i b c
        have hb : b ∈ done := ih2
        have hc := h1 b hb c (mem_neighbors_iff_dist.mpr hstep.2) hstep.1
        rcases hc with h | h
        · exact h
        · exact absurd h (List.not_mem_nil c)
    | cons cp rest =>
      by_cases hdone : cp ∈ done
      · have heq : floodAux w (fuel + 1) (cp :: rest) done = floodAux w fuel rest done := by
          simp [floodAux, hdone]
        rw [heq]
        apply ih rest done h0 ?_ h2 ?_ ?_ ?_
        · intro d hd n hn hopen
          rcases h1 d hd n hn hopen with h | h
          · exact Or.inl h
          · rcases List.mem_cons.mp h with h | h
            · exact Or.inl (h ▸ hdone)
            · exact Or.inr h
        · intro p hp
          exact h3 p (List.mem_cons_of_mem cp hp)
        · intro hs
          rcases h4 hs with h | h
          · exact Or.inl h
          · rcases List.mem_cons.mp h with h | h
            · exact Or.inl (h ▸ hdone)
            · exact Or.inr h
        · simp only [List.length_cons] at hfuel
          omega
      · by_cases hblk : isBlock w cp = true
        · have heq : floodAux w (fuel + 1) (cp :: rest) done = floodAux w fuel rest done := by
            simp [floodAux, hdone, hblk]
          rw [heq]
          apply ih rest done h0 ?_ h2 ?_ ?_ ?_
          · intro d hd n hn hopen
            rcases h1 d hd n hn hopen with h | h
            · exact Or.inl h
            · rcases List.mem_cons.mp h with h | h
              · exfalso; rw [h] at hopen; rw [hopen] at hblk; exact Bool.false_ne_true hblk
              · exact Or.inr h
          · intro p hp
            exact h3 p (List.mem_cons_of_mem cp hp)
          · intro hs
            rcases h4 hs with h | h
            · exact Or.inl h
            · rcases List.mem_cons.mp h with h | h
              · exfalso; rw [h] at hs; rw [hs] at hblk; exact Bool.false_ne_true hblk
              · exact Or.inr h
          · simp only [List.length_cons] at hfuel
            omega
        · have hopen : isBlock w cp = false := Bool.eq_false_iff.mpr hblk
          have hreach : OpenReach w start cp := h3 cp (List.mem_cons_self cp rest) hopen
          have heq : floodAux w (fuel + 1) (cp :: rest) done =
              cp :: floodAux w fuel (((neighbors cp).filter (fun n => n ∉ done)) ++ rest)
                (insert cp done) := by
            simp only [floodAux, hdone, if_false, hopen]
            simp
          rw [heq]
          set stack' := ((neighbors cp).filter (fun n => n ∉ done)) ++ rest with hstack'
          set done' := insert cp done with hdone'
          have hcard : done'.card = done.card + 1 := Finset.card_insert_of_not_mem hdone
          have push_le : ((neighbors cp).filter (fun n => n ∉ done)).length ≤ 4 := by
            calc ((neighbors cp).filter (fun n => n ∉ done)).length
                ≤ (neighbors cp).length := List.length_filter_le _ _
              _ = 4 := by simp [neighbors, DIRECTIONS]
          have ihres := ih stack' done' ?_ ?_ ?_ ?_ ?_ ?_
          · obtain ⟨ihnd, ihfresh, ihsound, ihcomp⟩ := ihres
            refine ⟨?_, ?_, ?_, ?_⟩
            · refine List.nodup_cons.mpr ⟨?_, ihnd⟩
              intro hmem
              have := ihfresh cp hmem
              exact this (Finset.mem_insert_self cp done)
            · intro q hq
              rcases List.mem_cons.mp hq with h | h
              · exact h ▸ hdone
              · intro hqd
                exact ihfresh q h (Finset.mem_insert_of_mem hqd)
            · intro q hq
              rcases List.mem_cons.mp hq with h | h
              · exact h ▸ hreach
              · exact ihsound q h
            · intro q hq
              rcases ihcomp q hq with h | h
              · rcases Finset.mem_insert.mp h with h | h
                · exact Or.inr (List.mem_cons.mpr (Or.inl h))
                · exact Or.inl h
              · exact Or.inr (List.mem_cons.mpr (Or.inr h))
          · intro d hd
            rcases Finset.mem_insert.mp hd with h | h
            · exact h ▸ hopen
            · exact h0 d h
          · intro d hd n hn hno
            rcases Finset.mem_insert.mp hd with h | h
            · subst h
              by_cases hnd : n ∈ done
              · exact Or.inl (Finset.mem_insert_of_mem hnd)
              · refine Or.inr (List.mem_append.mpr (Or.inl ?_))
                exact List.mem_filter.mpr ⟨hn, by simpa using hnd⟩
            · rcases h1 d h n hn hno with h2' | h2'
              · exact Or.inl (Finset.mem_insert_of_mem h2')
              · rcases List.mem_cons.mp h2' with h3' | h3'
                · exact Or.inl (h3' ▸ Finset.mem_insert_self cp done)
                · exact Or.inr (List.mem_append.mpr (Or.inr h3'))
          · intro d hd
            rcases Finset.mem_insert.mp hd with h | h
            · exact h ▸ hreach
            · exact h2 d h
          · intro p hp hpo
            rcases List.mem_append.mp hp with h | h
            · have hn := (List.mem_filter.mp h).1
              exact hreach.step hpo (mem_neighbors_iff_dist.mp hn)
            · exact h3 p (List.mem_cons_of_mem cp h) hpo
          · intro hs
            rcases h4 hs with h | h
            · exact Or.inl (Finset.mem_insert_of_mem h)
            · rcases List.mem_cons.mp h with h | h
              · exact Or.inl (h ▸ Finset.mem_insert_self cp done)
              · exact Or.inr (List.mem_append.mpr (Or.inr h))
          · have hlen : stack'.length ≤ 4 + rest.length := by
              rw [hstack', List.length_append]
              omega
            simp only [List.length_cons] at hfuel
            omega

/-- `flood_fill` run from scratch: the yield list has no duplicates and
enumerates exactly the open cells reachable from `point`. -/
theorem floodList_spec (w : World) (point : Pos) :
    (floodList w point).Nodup ∧
    (∀ q, q ∈ floodList w point ↔ OpenReach w point q) := by
  have h := floodAux_spec w point (floodFuel w) [point] ∅
    (by simp) (by simp) (by simp)
    (by
      intro p hp hpo
      rcases List.mem_cons.mp hp with h | h
      · exact h ▸ OpenReach.refl_of_open (h ▸ hpo)
      · exact absurd h (List.not_mem_nil p))
    (by intro _; exact Or.inr (List.mem_cons_self point []))
    (by
      have := card_openF_le w
      simp only [List.length_cons, List.length_nil, Finset.card_empty, floodFuel]
      omega)
  obtain ⟨hnd, _, hsound, hcomp⟩ := h
  refine ⟨hnd, ?_⟩
  intro q
  constructor
  · exact hsound q
  · intro hq
    rcases hcomp q hq with h | h
    · exact absurd h (Finset.not_mem_empty q)
    · exact h

theorem pyMaxBy_eq_none_iff {lt : α → α → Prop} [DecidableRel lt] {l : List α} :
    pyMaxBy lt l = none ↔ l = [] := by
  cases l <;> simp [pyMaxBy]

theorem pyMaxBy_foldl_spec {lt : α → α → Prop} [DecidableRel lt]
    (hirr : ∀ a, ¬ lt a a) (htr : ∀ {a b c}, lt a b → lt b c → lt a c)
    (htot : ∀ a b, lt a b ∨ a = b ∨ lt b a) :
    ∀ (l : List α) (x : α),
      (l.foldl (fun m y => if lt m y then y else m) x = x ∨
        l.foldl (fun m y => if lt m y then y else m) x ∈ l) ∧
      ¬ lt (l.foldl (fun m y => if lt m y then y else m) x) x ∧
      ∀ y ∈ l, ¬ lt (l.foldl (fun m y => if lt m y then y else m) x) y := by
  intro l
  induction l with
  | nil => intro x; exact ⟨Or.inl rfl, hirr x, by simp⟩
  | cons y rest ih =>
    intro x
    simp only [List.foldl_cons]
    by_cases hxy : lt x y
    · rw [if_pos hxy]
      obtain ⟨hmem, hnlt, hall⟩ := ih y
      refine ⟨?_, ?_, ?_⟩
      · rcases hmem with h | h
        · exact Or.inr (List.mem_cons.mpr (Or.inl h))
        · exact Or.inr (List.mem_cons_of_mem y h)
      · intro hc
        exact hnlt (htr hc hxy)
      · intro z hz
        rcases List.mem_cons.mp hz with h | h
        · exact h ▸ hnlt
        · exact hall z h
    · rw [if_neg hxy]
      obtain ⟨hmem, hnlt, hall⟩ := ih x
      refine ⟨?_, hnlt, ?_⟩
      · rcases hmem with h | h
        · exact Or.inl h
        · exact Or.inr (List.mem_cons_of_mem y h)
      · intro z hz
        rcases List.mem_cons.mp hz with h | h
        · subst h
          intro hc
          rcases htot x z with h1 | h1 | h1
          · exact hxy h1
          · exact hnlt (h1 ▸ hc)
          · exact hnlt (htr hc h1)
        · exact hall z h

theorem pyMaxBy_spec {lt : α → α → Prop} [DecidableRel lt]
    (hirr : ∀ a, ¬ lt a a) (htr : ∀ {a b c}, lt a b → lt b c → lt a c)
    (htot : ∀ a b, lt a b ∨ a = b ∨ lt b a) {l : List α} {m : α}
    (h : pyMaxBy lt l = some m) : m ∈ l ∧ ∀ y ∈ l, ¬ lt m y := by
  cases l with
  | nil => simp [pyMaxBy] at h
  | cons x rest =>
    simp only [pyMaxBy, Option.some.injEq] at h
    obtain ⟨hmem, hnlt, hall⟩ := pyMaxBy_foldl_spec hirr htr htot rest x
    subst h
    refine ⟨?_, ?_⟩
    · rcases hmem with h | h
      · rw [h]; exact List.mem_cons_self x rest
      · exact List.mem_cons_of_mem x h
    · intro y hy
      rcases List.mem_cons.mp hy with h | h
      · rw [h]; exact hnlt
      · exact hall y h

theorem scorePosLt_irrefl (a : ℚ × Pos) : ¬ scorePosLt a a := by
  unfold scorePosLt
  simp

theorem scorePosLt_trans {a b c : ℚ × Pos} (h1 : scorePosLt a b) (h2 : scorePosLt b c) :
    scorePosLt a c := by
  unfold scorePosLt at *
  rcases h1 with h1 | ⟨h1e, h1r⟩ <;> rcases h2 with h2 | ⟨h2e, h2r⟩
  · exact Or.inl (lt_trans h1 h2)
  · exact Or.inl (h2e ▸ h1)
  · exact Or.inl (h1e ▸ h2)
  · refine Or.inr ⟨h1e.trans h2e, ?_⟩
    rcases h1r with h1r | ⟨h1x, h1y⟩ <;> rcases h2r with h2r | ⟨h2x, h2y⟩
    · exact Or.inl (lt_trans h1r h2r)
    · exact Or.inl (h2x ▸ h1r)
    · exact Or.inl (h1x ▸ h2r)
    · exact Or.inr ⟨h1x.trans h2x, lt_trans h1y h2y⟩

theorem scorePosLt_total (a b : ℚ × Pos) :
    scorePosLt a b ∨ a = b ∨ scorePosLt b a := by
  unfold scorePosLt
  obtain ⟨a1, a2⟩ := a
  obtain ⟨b1, b2⟩ := b
  obtain ⟨ax, ay⟩ := a2
  obtain ⟨bx, by'⟩ := b2
  simp only [Prod.mk.injEq, Pos.mk.injEq]
  rcases lt_trichotomy a1 b1 with h | h | h
  · exact Or.inl (Or.inl h)
  · subst h
    rcases lt_trichotomy ax bx with h | h | h
    · exact Or.inl (Or.inr ⟨rfl, Or.inl h⟩)
    · subst h
      rcases lt_trichotomy ay by' with h | h | h
      · exact Or.inl (Or.inr ⟨rfl, Or.inr ⟨rfl, h⟩⟩)
      · exact Or.inr (Or.inl ⟨rfl, rfl, h⟩)
      · exact Or.inr (Or.inr (Or.inr ⟨rfl, Or.inr ⟨rfl, h⟩⟩))
    · exact Or.inr (Or.inr (Or.inr ⟨rfl, Or.inl h⟩))
  · exact Or.inr (Or.inr (Or.inl h))

theorem frVecLt_irrefl (a : ℚ × Vec) : ¬ frVecLt a a := by
  unfold frVecLt
  simp

theorem frVecLt_trans {a b c : ℚ × Vec} (h1 : frVecLt a b) (h2 : frVecLt b c) :
    frVecLt a c := by
  unfold frVecLt at *
  rcases h1 with h1 | ⟨h1e, h1r⟩ <;> rcases h2 with h2 | ⟨h2e, h2r⟩
  · exact Or.inl (lt_trans h1 h2)
  · exact Or.inl (h2e ▸ h1)
  · exact Or.inl (h1e ▸ h2)
  · refine Or.inr ⟨h1e.trans h2e, ?_⟩
    rcases h1r with h1r | ⟨h1x, h1y⟩ <;> rcases h2r with h2r | ⟨h2x, h2y⟩
    · exact Or.inl (lt_trans h1r h2r)
    · exact Or.inl (h2x ▸ h1r)
    · exact Or.inl (h1x ▸ h2r)
    · exact Or.inr ⟨h1x.trans h2x, lt_trans h1y h2y⟩

theorem frVecLt_total (a b : ℚ × Vec) : frVecLt a b ∨ a = b ∨ frVecLt b a := by
  unfold frVecLt
  obtain ⟨a1, a2⟩ := a
  obtain ⟨b1, b2⟩ := b
  obtain ⟨ax, ay⟩ := a2
  obtain ⟨bx, by'⟩ := b2
  simp only [Prod.mk.injEq, Vec.mk.injEq]
  rcases lt_trichotomy a1 b1 with h | h | h
  · exact Or.inl (Or.inl h)
  · subst h
    rcases lt_trichotomy ax bx with h | h | h
    · exact Or.inl (Or.inr ⟨rfl, Or.inl h⟩)
    · subst h
      rcases lt_trichotomy ay by' with h | h | h
      · exact Or.inl (Or.inr ⟨rfl, Or.inr ⟨rfl, h⟩⟩)
      · exact Or.inr (Or.inl ⟨rfl, rfl, h⟩)
      · exact Or.inr (Or.inr (Or.inr ⟨rfl, Or.inr ⟨rfl, h⟩⟩))
    · exact Or.inr (Or.inr (Or.inr ⟨rfl, Or.inl h⟩))
  · exact Or.inr (Or.inr (Or.inl h))

theorem divInt_natCast_eq_div (a b : ℕ) :
    Rat.divInt (a : ℤ) (b : ℤ) = (a : ℚ) / (b : ℚ) := by
  rw [Rat.divInt_eq_div]
  push_cast
  rfl

theorem floodList_eq_nil_iff {w : World} {p : Pos} :
    floodList w p = [] ↔ isBlock w p = true := by
  obtain ⟨_, hmem⟩ := floodList_spec w p
  constructor
  · intro h
    by_contra hb
    have hopen : isBlock w p = false := Bool.eq_false_iff.mpr hb
    have := (hmem p).mpr (OpenReach.refl_of_open hopen)
    rw [h] at this
    exact List.not_mem_nil p this
  · intro h
    rw [List.eq_nil_iff_forall_not_mem]
    intro q hq
    have := ((hmem q).mp hq).1
    rw [h] at this
    exact Bool.true_eq_false.mp this

theorem floodList_length_pos_of_open {w : World} {p : Pos}
    (h : isBlock w p = false) : 1 ≤ (floodList w p).length := by
  obtain ⟨_, hmem⟩ := floodList_spec w p
  have := (hmem p).mpr (OpenReach.refl_of_open h)
  exact List.length_pos.mpr (List.ne_nil_of_mem this)

theorem freeRoom_of_open_len_one {w : World} {p : Pos}
    (h : isBlock w p = false) : freeRoom w 1 p = 1 := by
  unfold freeRoom
  rw [if_pos (floodList_length_pos_of_open h)]

theorem freeRoom_nonneg (w : World) (length : ℕ) (p : Pos) :
    0 ≤ freeRoom w length p := by
  unfold freeRoom
  split
  · norm_num
  · rw [divInt_natCast_eq_div]
    positivity

theorem freeRoom_le_one (w : World) (length : ℕ) (p : Pos) (hlen : 1 ≤ length) :
    freeRoom w length p ≤ 1 := by
  unfold freeRoom
  split
  · exact le_refl 1
  · rename_i hgt
    rw [divInt_natCast_eq_div]
    rw [div_le_one (by exact_mod_cast Nat.lt_of_lt_of_le Nat.zero_lt_one hlen)]
    exact_mod_cast Nat.le_of_lt (Nat.lt_of_not_le hgt)

theorem accepts_iff {w : World} {length : ℕ} {plan : List Pos} {next : Pos} :
    accepts w length plan next = true ↔
      isBlock w next = false ∧ next ∉ plan ∧ 1 ≤ freeRoom w length next := by
  unfold accepts
  simp only [Bool.not_eq_eq_eq_not, Bool.not_true, Bool.or_eq_false_iff,
    decide_eq_false_iff_not, not_lt, List.contains_eq_any_beq, List.any_eq_false,
    beq_iff_eq]
  constructor
  · rintro ⟨⟨h1, h2⟩, h3⟩
    exact ⟨h1, fun hmem => (h2 next hmem) rfl, h3⟩
  · rintro ⟨h1, h2, h3⟩
    exact ⟨⟨h1, fun a ha hne => h2 (hne ▸ ha)⟩, h3⟩

theorem firstAccepted_spec {w : World} {length : ℕ} {plan : List Pos} {c : Pos} :
    ∀ {cands : List Vec} {d : Vec} {next : Pos},
      firstAccepted w length plan c cands = some (d, next) →
      d ∈ cands ∧ next = move c d ∧ accepts w length plan next = true := by
  intro cands
  induction cands with
  | nil => intro d next h; simp [firstAccepted] at h
  | cons e rest ih =>
    intro d next h
    unfold firstAccepted at h
    by_cases hacc : accepts w length plan (move c e) = true
    · rw [if_pos hacc] at h
      simp only [Option.some.injEq, Prod.mk.injEq] at h
      obtain ⟨h1, h2⟩ := h
      subst h1; subst h2
      exact ⟨List.mem_cons_self e rest, rfl, hacc⟩
    · rw [if_neg hacc] at h
      obtain ⟨h1, h2, h3⟩ := ih h
      exact ⟨List.mem_cons_of_mem e h1, h2, h3⟩

theorem firstAccepted_eq_none_iff {w : World} {length : ℕ} {plan : List Pos} {c : Pos}
    {cands : List Vec} :
    firstAccepted w length plan c cands = none ↔
      ∀ d ∈ cands, accepts w length plan (move c d) = false := by
  induction cands with
  | nil => simp [firstAccepted]
  | cons e rest ih =>
    unfold firstAccepted
    by_cases hacc : accepts w length plan (move c e) = true
    · simp [hacc]
    · simp only [if_neg hacc, ih, List.mem_cons]
      constructor
      · intro h d hd
        rcases hd with hd | hd
        · subst hd; exact Bool.eq_false_iff.mpr hacc
        · exact h d hd
      · intro h d hd
        exact h d (Or.inr hd)

theorem chooseDirs_fst_mem (dx dy : ℤ) : (chooseDirs dx dy).1 ∈ DIRECTIONS := by
  unfold chooseDirs DIRECTIONS
  split_ifs <;> simp

theorem chooseDirs_snd_subset (dx dy : ℤ) :
    ∀ d ∈ (chooseDirs dx dy).2, d ∈ DIRECTIONS := by
  unfold chooseDirs DIRECTIONS
  split_ifs <;> intro d hd <;> simp at hd <;>
    first
      | (rcases hd with h | h <;> simp [h])
      | simp [hd]

theorem arrange_mem {b : Bool} {l : List Vec} {d : Vec} (h : d ∈ arrange b l) :
    d ∈ l := by
  unfold arrange at h
  split at h
  · exact h
  · exact List.mem_reverse.mp h

/-- Every direction tried in a `get_to` iteration is one of the four unit
vectors. -/
theorem trial_mem_DIRECTIONS {dx dy : ℤ} {b : Bool} {d : Vec}
    (h : d ∈ (chooseDirs dx dy).1 :: arrange b (chooseDirs dx dy).2) :
    d ∈ DIRECTIONS := by
  rcases List.mem_cons.mp h with h | h
  · exact h ▸ chooseDirs_fst_mem dx dy
  · exact chooseDirs_snd_subset dx dy d (arrange_mem h)

/-- The structural invariant of `get_to`'s loop: whatever the random draws,
as long as the plan built so far is duplicate-free, consists of open cells,
is 4-chained from the head, and ends at the simulated position, the final
plan (on success) keeps all of that. -/
theorem getToAux_invariant (w : World) (length : ℕ) (coin : ℕ → Bool) (target head : Pos) :
    ∀ (fuel : ℕ) (c : Pos) (plan : List Pos) (dirs : List Vec),
    plan.Nodup →
    (∀ p ∈ plan, isBlock w p = false) →
    List.Chain' (fun a b => dist a b = 1) (head :: plan) →
    (head :: plan).getLast? = some c →
    ∀ {ps : List Pos} {ds : List Vec},
      getToAux w length coin target fuel c plan dirs = PlanResult.plan ps ds →
      ps.Nodup ∧ (∀ p ∈ ps, isBlock w p = false) ∧
        List.Chain' (fun a b => dist a b = 1) (head :: ps) := by
  intro fuel
  induction fuel with
  | zero =>
    intro c plan dirs _ _ _ _ ps ds h
    simp [getToAux] at h
  | succ fuel ih =>
    intro c plan dirs hnd hopen hchain hlast ps ds h
    unfold getToAux at h
    by_cases hct : c = target
    · rw [if_pos hct] at h
      simp only [PlanResult.plan.injEq] at h
      obtain ⟨h1, _⟩ := h
      subst h1
      exact ⟨hnd, hopen, hchain⟩
    · rw [if_neg hct] at h
      cases hfa : firstAccepted w length plan c
          ((chooseDirs (c.x - target.x) (c.y - target.y)).1 ::
            arrange (coin plan.length) (chooseDirs (c.x - target.x) (c.y - target.y)).2) with
      | none => rw [hfa] at h; exact absurd h (by simp)
      | some dn =>
        obtain ⟨d, next⟩ := dn
        rw [hfa] at h
        obtain ⟨hdmem, hnext, hacc⟩ := firstAccepted_spec hfa
        obtain ⟨hblk, hfresh, _⟩ := accepts_iff.mp hacc
        have hddir : d ∈ DIRECTIONS := trial_mem_DIRECTIONS hdmem
        have hadj : dist c next = 1 := hnext ▸ dist_move_of_mem_DIRECTIONS hddir c
        apply ih next (plan ++ [next]) (dirs ++ [d]) ?_ ?_ ?_ ?_ h
        · exact List.Nodup.append hnd (List.nodup_singleton next)
            (by simpa using hfresh)
        · intro p hp
          rcases List.mem_append.mp hp with hp | hp
          · exact hopen p hp
          · rw [List.mem_singleton.mp hp]; exact hblk
        · rw [show head :: (plan ++ [next]) = (head :: plan) ++ [next] by simp]
          rw [List.chain'_append]
          refine ⟨hchain, List.chain'_singleton next, ?_⟩
          intro a ha b hb
          rw [hlast] at ha
          simp only [Option.mem_def, Option.some.injEq] at ha
          simp only [List.head?_cons, Option.mem_def, Option.some.injEq] at hb
          subst ha; subst hb
          exact hadj
        · rw [show head :: (plan ++ [next]) = (head :: plan) ++ [next] by simp,
            List.getLast?_concat]

/-- Termination bound for `get_to` (the source's `while` loop): the plan
only ever receives fresh in-bounds cells, so with fuel
`SIZE_X * SIZE_Y + 1` the fuel never runs out. -/
theorem getToAux_not_outOfFuel (w : World) (length : ℕ) (coin : ℕ → Bool) (target : Pos) :
    ∀ (fuel : ℕ) (c : Pos) (plan : List Pos) (dirs : List Vec),
    plan.Nodup →
    (∀ p ∈ plan, isBlock w p = false) →
    w.SIZE_X * w.SIZE_Y + 1 ≤ fuel + plan.length →
    getToAux w length coin target fuel c plan dirs ≠ PlanResult.outOfFuel := by
  intro fuel
  induction fuel with
  | zero =>
    intro c plan dirs hnd hopen hfuel
    exfalso
    have hsub : plan.toFinset ⊆ boundsF w := by
      intro p hp
      exact mem_boundsF.mpr (inBoundsP_of_isBlock_false (hopen p (List.mem_toFinset.mp hp)))
    have hcard : plan.toFinset.card = plan.length := List.toFinset_card_of_nodup hnd
    have := Finset.card_le_card hsub
    rw [hcard, card_boundsF] at this
    omega
  | succ fuel ih =>
    intro c plan dirs hnd hopen hfuel
    unfold getToAux
    by_cases hct : c = target
    · rw [if_pos hct]; simp
    · rw [if_neg hct]
      cases hfa : firstAccepted w length plan c
          ((chooseDirs (c.x - target.x) (c.y - target.y)).1 ::
            arrange (coin plan.length) (chooseDirs (c.x - target.x) (c.y - target.y)).2) with
      | none => simp
      | some dn =>
        obtain ⟨d, next⟩ := dn
        obtain ⟨hdmem, hnext, hacc⟩ := firstAccepted_spec hfa
        obtain ⟨hblk, hfresh, _⟩ := accepts_iff.mp hacc
        apply ih next (plan ++ [next]) (dirs ++ [d])
        · exact List.Nodup.append hnd (List.nodup_singleton next) (by simpa using hfresh)
        · intro p hp
          rcases List.mem_append.mp hp with hp | hp
          · exact hopen p hp
          · rw [List.mem_singleton.mp hp]; exact hblk
        · simp only [List.length_append, List.length_singleton]
          omega

theorem getTo_not_outOfFuel (w : World) (length : ℕ) (head : Pos) (coin : ℕ → Bool)
    (target : Pos) : getTo w length head coin target ≠ PlanResult.outOfFuel := by
  unfold getTo
  apply getToAux_not_outOfFuel
  · exact List.nodup_nil
  · intro p hp; exact absurd hp (List.not_mem_nil p)
  · simp

theorem dist_eq_zero_iff {a b : Pos} : dist a b = 0 ↔ a = b := by
  unfold dist
  cases a with
  | mk ax ay =>
    cases b with
    | mk bx by' =>
      simp only [Pos.mk.injEq]
      omega

theorem mem_scanPositions {w : World} {p : Pos} :
    p ∈ scanPositions w ↔ inBoundsP w p := by
  cases p with
  | mk px py =>
    unfold scanPositions inBoundsP
    constructor
    · intro h
      obtain ⟨y, hy, hmem⟩ := List.mem_flatMap.mp h
      obtain ⟨x, hx, heq⟩ := List.mem_map.mp hmem
      rw [List.mem_range] at hy hx
      simp only [Pos.mk.injEq] at heq
      obtain ⟨hex, hey⟩ := heq
      refine ⟨?_, ?_, ?_, ?_⟩ <;> simp only [] <;> omega
    · rintro ⟨h1, h2, h3, h4⟩
      simp only [] at h1 h2 h3 h4
      refine List.mem_flatMap.mpr ⟨py.toNat, List.mem_range.mpr (by omega), ?_⟩
      refine List.mem_map.mpr ⟨px.toNat, List.mem_range.mpr (by omega), ?_⟩
      simp only [Pos.mk.injEq]
      constructor <;> omega

theorem mem_findBestCands {w : World} {head : Pos} {sp : ℚ × Pos} :
    sp ∈ findBestCands w head ↔
      ∃ d : Fin 10, digitAt w sp.2 = some d ∧
        sp.1 = ((d : ℕ) : ℚ) / ((dist head sp.2 : ℕ) : ℚ) := by
  unfold findBestCands
  rw [List.mem_filterMap]
  constructor
  · rintro ⟨a, ha, hf⟩
    have hb : inBoundsP w a := mem_scanPositions.mp ha
    cases hc : w.cell a.y a.x with
    | digit d =>
      rw [hc] at hf
      simp only [Option.some.injEq] at hf
      subst hf
      refine ⟨d, ?_, (divInt_natCast_eq_div _ _)⟩
      unfold digitAt
      rw [if_pos hb, hc]
    | void => rw [hc] at hf; exact absurd hf (by simp)
    | stone => rw [hc] at hf; exact absurd hf (by simp)
    | head c => rw [hc] at hf; exact absurd hf (by simp)
    | body c => rw [hc] at hf; exact absurd hf (by simp)
    | tail c => rw [hc] at hf; exact absurd hf (by simp)
    | dead => rw [hc] at hf; exact absurd hf (by simp)
  · rintro ⟨d, hd, hs⟩
    unfold digitAt at hd
    by_cases hb : inBoundsP w sp.2
    · rw [if_pos hb] at hd
      refine ⟨sp.2, mem_scanPositions.mpr hb, ?_⟩
      cases hc : w.cell sp.2.y sp.2.x with
      | digit e =>
        rw [hc] at hd
        simp only [Option.some.injEq] at hd
        subst hd
        obtain ⟨s1, s2⟩ := sp
        simp only [] at hs ⊢
        simp only [Option.some.injEq, Prod.mk.injEq]
        rw [divInt_natCast_eq_div]
        refine ⟨hs.symm, ?_⟩
        first
          | rfl
          | trivial
      | void => rw [hc] at hd; exact absurd hd (by simp)
      | stone => rw [hc] at hd; exact absurd hd (by simp)
      | head c => rw [hc] at hd; exact absurd hd (by simp)
      | body c => rw [hc] at hd; exact absurd hd (by simp)
      | tail c => rw [hc] at hd; exact absurd hd (by simp)
      | dead => rw [hc] at hd; exact absurd hd (by simp)
    · rw [if_neg hb] at hd
      exact absurd hd (by simp)

theorem scoreOf_of_digitAt {w : World} {head p : Pos} {d : Fin 10}
    (h : digitAt w p = some d) : scoreOf w head p = (d : ℚ) / (dist head p : ℚ) := by
  unfold scoreOf
  rw [h]

theorem findBestCands_eq_nil_iff {w : World} {head : Pos} :
    findBestCands w head = [] ↔ ∀ p, digitAt w p = none := by
  constructor
  · intro h p
    by_contra hp
    obtain ⟨d, hd⟩ := Option.ne_none_iff_exists.mp hp
    have : ((d : ℚ) / (dist head p : ℚ), p) ∈ findBestCands w head :=
      mem_findBestCands.mpr ⟨d, hd.symm, rfl⟩
    rw [h] at this
    exact List.not_mem_nil _ this
  · intro h
    rw [List.eq_nil_iff_forall_not_mem]
    intro sp hsp
    obtain ⟨d, hd, _⟩ := mem_findBestCands.mp hsp
    rw [h sp.2] at hd
    exact Option.noConfusion hd

theorem backupGo_eq_none_iff (w : World) (len : ℕ) (head : Pos) :
    ∀ (rest : List Vec) (unblocked : List (ℚ × Vec)),
      backupGo w len head rest unblocked = none ↔
        (∀ d ∈ rest, isBlock w (move head d) = true) ∧ unblocked = [] := by
  intro rest
  induction rest with
  | nil =>
    intro unblocked
    unfold backupGo
    cases h : pyMaxBy frVecLt unblocked with
    | none =>
      rw [pyMaxBy_eq_none_iff] at h
      simp [h]
    | some m =>
      have hne : unblocked ≠ [] := by
        intro he
        rw [he] at h
        simp [pyMaxBy] at h
      simp [h, hne]
  | cons e rest ih =>
    intro unblocked
    unfold backupGo
    by_cases hblk : isBlock w (move head e) = true
    · rw [if_pos hblk, ih]
      simp only [List.forall_mem_cons]
      constructor
      · rintro ⟨h1, h2⟩
        exact ⟨⟨hblk, h1⟩, h2⟩
      · rintro ⟨⟨_, h1⟩, h2⟩
        exact ⟨h1, h2⟩
    · rw [if_neg hblk]
      by_cases hfr : freeRoom w len (move head e) = 1
      · rw [if_pos hfr]
        simp only [List.forall_mem_cons]
        constructor
        · intro h; exact absurd h (by simp)
        · rintro ⟨⟨h1, _⟩, _⟩
          exact absurd h1 hblk
      · rw [if_neg hfr, ih]
        simp only [List.forall_mem_cons]
        constructor
        · rintro ⟨_, h2⟩
          exact absurd h2 (by simp)
        · rintro ⟨⟨h1, _⟩, _⟩
          exact absurd h1 hblk

theorem backupGo_full (w : World) (len : ℕ) (head : Pos) :
    ∀ (rest : List Vec) (unblocked : List (ℚ × Vec)) (d0 : Vec), d0 ∈ rest →
      isBlock w (move head d0) = false → freeRoom w len (move head d0) = 1 →
      ∃ d, backupGo w len head rest unblocked = some d ∧
        isBlock w (move head d) = false ∧ freeRoom w len (move head d) = 1 := by
  intro rest
  induction rest with
  | nil => intro unblocked d0 h; exact absurd h (List.not_mem_nil d0)
  | cons e rest ih =>
    intro unblocked d0 hmem hopen hfr
    unfold backupGo
    by_cases hblk : isBlock w (move head e) = true
    · rw [if_pos hblk]
      have hne : d0 ≠ e := by
        intro h; rw [h] at hopen; rw [hopen] at hblk; exact Bool.false_ne_true hblk
      rcases List.mem_cons.mp hmem with h | h
      · exact absurd h hne
      · exact ih unblocked d0 h hopen hfr
    · rw [if_neg hblk]
      by_cases hfre : freeRoom w len (move head e) = 1
      · rw [if_pos hfre]
        exact ⟨e, rfl, Bool.eq_false_iff.mpr hblk, hfre⟩
      · rw [if_neg hfre]
        rcases List.mem_cons.mp hmem with h | h
        · subst h; exact absurd hfr hfre
        · exact ih _ d0 h hopen hfr

theorem backupGo_max (w : World) (len : ℕ) (head : Pos) :
    ∀ (rest : List Vec) (unblocked : List (ℚ × Vec)),
      (∀ x ∈ unblocked, isBlock w (move head x.2) = false ∧
        x.1 = freeRoom w len (move head x.2)) →
      (∀ d ∈ rest, isBlock w (move head d) = false → freeRoom w len (move head d) ≠ 1) →
      ∀ d, backupGo w len head rest unblocked = some d →
        isBlock w (move head d) = false ∧
        (∀ x ∈ unblocked, x.1 ≤ freeRoom w len (move head d)) ∧
        (∀ d2 ∈ rest, isBlock w (move head d2) = false →
          freeRoom w len (move head d2) ≤ freeRoom w len (move head d)) := by
  intro rest
  induction rest with
  | nil =>
    intro unblocked hunb _ d hd
    unfold backupGo at hd
    obtain ⟨m, hm, hmd⟩ : ∃ m, pyMaxBy frVecLt unblocked = some m ∧ m.2 = d := by
      cases hm : pyMaxBy frVecLt unblocked with
      | none => rw [hm] at hd; exact absurd hd (by simp)
      | some m =>
        rw [hm] at hd
        simp only [Option.map_some', Option.some.injEq] at hd
        exact ⟨m, rfl, hd⟩
    obtain ⟨hmem, hmax⟩ := pyMaxBy_spec frVecLt_irrefl frVecLt_trans frVecLt_total hm
    obtain ⟨hmo, hmv⟩ := hunb m hmem
    subst hmd
    refine ⟨hmo, ?_, by simp⟩
    intro x hx
    have hnlt := hmax x hx
    unfold frVecLt at hnlt
    push_neg at hnlt
    rw [← hmv]
    exact hnlt.1
  | cons e rest ih =>
    intro unblocked hunb hno d hd
    unfold backupGo at hd
    by_cases hblk : isBlock w (move head e) = true
    · rw [if_pos hblk] at hd
      have hres := ih unblocked hunb (fun d2 h2 => hno d2 (List.mem_cons_of_mem e h2)) d hd
      refine ⟨hres.1, hres.2.1, ?_⟩
      intro d2 h2 ho2
      rcases List.mem_cons.mp h2 with h | h
      · rw [h] at ho2; rw [ho2] at hblk; exact absurd hblk Bool.false_ne_true
      · exact hres.2.2 d2 h ho2
    · have hopen : isBlock w (move head e) = false := Bool.eq_false_iff.mpr hblk
      rw [if_neg hblk] at hd
      by_cases hfre : freeRoom w len (move head e) = 1
      · exact absurd hfre (hno e (List.mem_cons_self e rest) hopen)
      · rw [if_neg hfre] at hd
        have hunb2 : ∀ x ∈ unblocked ++ [(freeRoom w len (move head e), e)],
            isBlock w (move head x.2) = false ∧ x.1 = freeRoom w len (move head x.2) := by
          intro x hx
          rcases List.mem_append.mp hx with h | h
          · exact hunb x h
          · rw [List.mem_singleton.mp h]
            exact ⟨hopen, rfl⟩
        have hres := ih _ hunb2 (fun d2 h2 => hno d2 (List.mem_cons_of_mem e h2)) d hd
        refine ⟨hres.1, ?_, ?_⟩
        · intro x hx
          exact hres.2.1 x (List.mem_append.mpr (Or.inl hx))
        · intro d2 h2 ho2
          rcases List.mem_cons.mp h2 with h | h
          · subst h
            have := hres.2.1 (freeRoom w len (move head d2), d2)
              (List.mem_append.mpr (Or.inr (List.mem_singleton.mpr rfl)))
            exact this
          · exact hres.2.2 d2 h ho2

theorem getToAux_step (w : World) (len : ℕ) (coin : ℕ → Bool) (target : Pos) (fuel : ℕ)
    (c next : Pos) (plan : List Pos) (dirs : List Vec) (d : Vec)
    (hne : c ≠ target)
    (hd : (chooseDirs (c.x - target.x) (c.y - target.y)).1 = d)
    (hmv : move c d = next)
    (hacc : accepts w len plan next = true) :
    getToAux w len coin target (fuel + 1) c plan dirs =
      getToAux w len coin target fuel next (plan ++ [next]) (dirs ++ [d]) := by
  have hfa : firstAccepted w len plan c
      ((chooseDirs (c.x - target.x) (c.y - target.y)).1 ::
        arrange (coin plan.length) (chooseDirs (c.x - target.x) (c.y - target.y)).2) =
      some (d, next) := by
    rw [hd]
    unfold firstAccepted
    rw [hmv, if_pos hacc]
  conv_lhs => unfold getToAux
  rw [if_neg hne, hfa]

theorem getToAux_done (w : World) (len : ℕ) (coin : ℕ → Bool) (target : Pos) (fuel : ℕ)
    (c : Pos) (plan : List Pos) (dirs : List Vec) (h : c = target) :
    getToAux w len coin target (fuel + 1) c plan dirs = PlanResult.plan plan dirs := by
  unfold getToAux
  rw [if_pos h]

/-- C1: for every world snapshot and every target coordinate, if the Path
Planner's `get_to(target)` completes without raising, the produced plan
contains no coordinate twice and every consecutive pair of plan coordinates
(taking the agent's head as the predecessor of the first plan coordinate)
is 4-adjacent, i.e. at Manhattan distance exactly 1. -/
theorem c1_plan_no_repeat_adjacent :
    ∀ (w : World) (len : ℕ) (head : Pos) (coin : ℕ → Bool) (target : Pos)
      (ps : List Pos) (ds : List Vec),
    getTo w len head coin target = PlanResult.plan ps ds →
    ps.Nodup ∧ List.Chain' (fun a b => dist a b = 1) (head :: ps) := by
  intro w len head coin target ps ds h
  unfold getTo at h
  have hinv := getToAux_invariant w len coin target head (w.SIZE_X * w.SIZE_Y + 1)
    head [] [] List.nodup_nil
    (by intro p hp; exact absurd hp (List.not_mem_nil p))
    (List.chain'_singleton head) (by simp) h
  exact ⟨hinv.1, hinv.2.2⟩

/-- Witness for C1 at a concrete snapshot: a one-step plan on a 3×3 grid. -/
theorem c1_plan_no_repeat_adjacent_witness :
    getTo wOpen 1 ⟨0, 0⟩ (fun _ => true) ⟨1, 0⟩ =
      PlanResult.plan [⟨1, 0⟩] [RIGHT] ∧
    (([⟨1, 0⟩] : List Pos).Nodup ∧
      List.Chain' (fun a b => dist a b = 1) ((⟨0, 0⟩ : Pos) :: [⟨1, 0⟩])) :=
  ⟨by decide,
    c1_plan_no_repeat_adjacent wOpen 1 ⟨0, 0⟩ (fun _ => true) ⟨1, 0⟩ [⟨1, 0⟩] [RIGHT]
      (by decide)⟩

/-- C2: whenever the Target Selector returns a target but `get_to` raises
`CannotContinue`, `next_direction` returns exactly `backup()`'s result; the
planner-failure exception never escapes (the return value is an `ok`). -/
theorem c2_unreachable_recovered :
    ∀ (w : World) (color : ℕ) (coin : ℕ → Bool) (ds : List Vec) (t : Pos),
    findBest w (getPosition w color).head = Except.ok (some t) →
    getTo w (getPosition w color).length (getPosition w color).head coin t =
      PlanResult.cannotContinue →
    nextDirection w color coin ds =
      Except.ok (backup w (getPosition w color).length (getPosition w color).head ds) := by
  intro w color coin ds t hfb hgt
  unfold nextDirection
  rw [hfb]
  show Except.ok (afterTarget w (getPosition w color).length (getPosition w color).head
    coin ds t) = _
  unfold afterTarget
  rw [hgt]

/-- Witness for C2: the head fully walled in by stone with a reward at
(4,4) — selection succeeds, planning fails at once, fallback is returned. -/
theorem c2_unreachable_recovered_witness :
    findBest wTrap (getPosition wTrap 0).head = Except.ok (some ⟨4, 4⟩) ∧
    getTo wTrap (getPosition wTrap 0).length (getPosition wTrap 0).head
      (fun _ => true) ⟨4, 4⟩ = PlanResult.cannotContinue ∧
    nextDirection wTrap 0 (fun _ => true) DIRECTIONS =
      Except.ok (backup wTrap (getPosition wTrap 0).length (getPosition wTrap 0).head
        DIRECTIONS) :=
  ⟨by decide, by decide,
    c2_unreachable_recovered wTrap 0 (fun _ => true) DIRECTIONS ⟨4, 4⟩
      (by decide) (by decide)⟩

/-- C3: when every digit cell is at Manhattan distance at least 1 from the
head, `find_best` completes (no exception); it returns `none` exactly when
there is no digit cell, and any returned coordinate is a digit cell of
maximal score (= digit value / distance). -/
theorem c3_find_best_max :
    ∀ (w : World) (head : Pos),
    (∀ p, digitAt w p ≠ none → 1 ≤ dist head p) →
    ∃ r, findBest w head = Except.ok r ∧
      (r = none ↔ ∀ p, digitAt w p = none) ∧
      (∀ p, r = some p → digitAt w p ≠ none ∧
        ∀ q, digitAt w q ≠ none → scoreOf w head q ≤ scoreOf w head p) := by
  intro w head hdist
  have hany : (findBestCands w head).any (fun sp => dist head sp.2 = 0) = false := by
    rw [List.any_eq_false]
    intro sp hsp
    obtain ⟨d, hd, _⟩ := mem_findBestCands.mp hsp
    have h1 := hdist sp.2 (by rw [hd]; exact Option.some_ne_none d)
    simp only [decide_eq_true_eq]
    omega
  unfold findBest
  rw [if_neg (by rw [hany]; exact Bool.false_ne_true)]
  refine ⟨_, rfl, ?_, ?_⟩
  · constructor
    · intro h
      cases hm : pyMaxBy scorePosLt (findBestCands w head) with
      | none => exact findBestCands_eq_nil_iff.mp (pyMaxBy_eq_none_iff.mp hm)
      | some m => rw [hm] at h; exact absurd h (by simp)
    · intro h
      rw [pyMaxBy_eq_none_iff.mpr (findBestCands_eq_nil_iff.mpr h)]
      rfl
  · intro p hp
    obtain ⟨m, hm, hmp⟩ : ∃ m, pyMaxBy scorePosLt (findBestCands w head) = some m ∧
        m.2 = p := by
      cases hm : pyMaxBy scorePosLt (findBestCands w head) with
      | none => rw [hm] at hp; exact absurd hp (by simp)
      | some m =>
        rw [hm] at hp
        simp only [Option.map_some', Option.some.injEq] at hp
        exact ⟨m, rfl, hp⟩
    obtain ⟨hmem, hmax⟩ :=
      pyMaxBy_spec scorePosLt_irrefl scorePosLt_trans scorePosLt_total hm
    obtain ⟨d, hd, hs⟩ := mem_findBestCands.mp hmem
    subst hmp
    refine ⟨by rw [hd]; exact Option.some_ne_none d, ?_⟩
    intro q hq
    obtain ⟨dq, hdq⟩ := Option.ne_none_iff_exists.mp hq
    have hcand : ((dq : ℚ) / (dist head q : ℚ), q) ∈ findBestCands w head :=
      mem_findBestCands.mpr ⟨dq, hdq.symm, rfl⟩
    have hnlt := hmax _ hcand
    unfold scorePosLt at hnlt
    push_neg at hnlt
    rw [scoreOf_of_digitAt hdq.symm, scoreOf_of_digitAt hd, ← hs]
    exact hnlt.1

/-- Witness for C3: two rewards, a 3 at distance 1 and a 9 at distance 5;
`find_best` completes and picks the distance-1 cell (score 3.0 beats 1.8). -/
theorem c3_find_best_max_witness :
    (∃ r, findBest wTwoRewards ⟨4, 4⟩ = Except.ok r ∧
      (r = none ↔ ∀ p, digitAt wTwoRewards p = none) ∧
      (∀ p, r = some p → digitAt wTwoRewards p ≠ none ∧
        ∀ q, digitAt wTwoRewards q ≠ none →
          scoreOf wTwoRewards ⟨4, 4⟩ q ≤ scoreOf wTwoRewards ⟨4, 4⟩ p)) ∧
    findBest wTwoRewards ⟨4, 4⟩ = Except.ok (some ⟨4, 5⟩) := by
  constructor
  · apply c3_find_best_max wTwoRewards ⟨4, 4⟩
    intro p hp
    by_contra hlt
    have h0 : dist (⟨4, 4⟩ : Pos) p = 0 := by omega
    rw [dist_eq_zero_iff] at h0
    rw [← h0] at hp
    exact hp (by decide)
  · decide

/-- C4: `backup()` returns none exactly when all four neighbors are
blocked; if some non-blocked neighbor has full fraction 1.0 the returned
direction has fraction 1.0; otherwise the returned direction is a
non-blocked neighbor of maximal fraction. -/
theorem c4_backup_spec :
    ∀ (w : World) (len : ℕ) (head : Pos) (ds : List Vec),
    1 ≤ len → ds.Perm DIRECTIONS →
    ((backup w len head ds = none ↔
        ∀ d ∈ DIRECTIONS, isBlock w (move head d) = true) ∧
      ((∃ d0 ∈ DIRECTIONS, isBlock w (move head d0) = false ∧
          freeRoom w len (move head d0) = 1) →
        ∃ d, backup w len head ds = some d ∧ isBlock w (move head d) = false ∧
          freeRoom w len (move head d) = 1) ∧
      ((∀ d0 ∈ DIRECTIONS, isBlock w (move head d0) = false →
          freeRoom w len (move head d0) ≠ 1) →
        ∀ d, backup w len head ds = some d →
          isBlock w (move head d) = false ∧
          ∀ d2 ∈ DIRECTIONS, isBlock w (move head d2) = false →
            freeRoom w len (move head d2) ≤ freeRoom w len (move head d))) := by
  intro w len head ds _ hperm
  have hmem : ∀ d : Vec, d ∈ ds ↔ d ∈ DIRECTIONS := fun d => hperm.mem_iff
  refine ⟨?_, ?_, ?_⟩
  · unfold backup
    rw [backupGo_eq_none_iff]
    constructor
    · rintro ⟨h, _⟩ d hd
      exact h d ((hmem d).mpr hd)
    · intro h
      exact ⟨fun d hd => h d ((hmem d).mp hd), rfl⟩
  · rintro ⟨d0, hd0, ho, hf⟩
    exact backupGo_full w len head ds [] d0 ((hmem d0).mpr hd0) ho hf
  · intro hno d hd
    have hres := backupGo_max w len head ds []
      (by intro x hx; exact absurd hx (List.not_mem_nil x))
      (fun d2 h2 => hno d2 ((hmem d2).mp h2)) d hd
    exact ⟨hres.1, fun d2 h2 ho2 => hres.2.2 d2 ((hmem d2).mpr h2) ho2⟩

/-- Witness for C4: the fully-enclosed head — `backup()` returns none. -/
theorem c4_backup_spec_witness :
    (1 ≤ 1 ∧ DIRECTIONS.Perm DIRECTIONS) ∧
    backup wEnclosed 1 ⟨1, 1⟩ DIRECTIONS = none :=
  ⟨⟨le_refl 1, List.Perm.refl DIRECTIONS⟩,
    ((c4_backup_spec wEnclosed 1 ⟨1, 1⟩ DIRECTIONS (le_refl 1)
      (List.Perm.refl DIRECTIONS)).1).mpr (by decide)⟩

/-- C5, counterexample: the claim says that in a `dy = 0, dx ≠ 0` iteration
the backup set tried after the preferred direction consists of exactly one
direction.  At `dx = 1, dy = 0` the code's backup set is `{UP, DOWN}`,
which has two elements, not one. -/
theorem c5_backup_set_counterexample : ¬ ((chooseDirs 1 0).2.length = 1) := by
  decide

/-- C5, amended: in a `dy = 0, dx ≠ 0` iteration the preferred direction is
the horizontal direction toward the target and the backup set is the
two-element set of both vertical directions, `{up, down}`. -/
theorem c5_dy_zero_dirs :
    ∀ dx dy : ℤ, dy = 0 → dx ≠ 0 →
    chooseDirs dx dy = (if dx > 0 then LEFT else RIGHT, [UP, DOWN]) := by
  intro dx dy hdy hdx
  subst hdy
  unfold chooseDirs
  rw [if_neg hdx, if_pos rfl]

/-- Witness for C5's amended claim at `dx = 1, dy = 0`. -/
theorem c5_dy_zero_dirs_witness :
    (0 : ℤ) = 0 ∧ (1 : ℤ) ≠ 0 ∧ chooseDirs 1 0 = (LEFT, [UP, DOWN]) := by
  refine ⟨rfl, by decide, ?_⟩
  have h := c5_dy_zero_dirs 1 0 rfl (by decide)
  simpa using h

/-- C6, counterexample: with agent length 1, `free_room` at a blocked start
returns 0, not a value strictly greater than 0. -/
theorem c6_free_room_counterexample :
    freeRoom wStone 1 ⟨2, 2⟩ = 0 ∧ ¬ (0 < freeRoom wStone 1 ⟨2, 2⟩) := by
  constructor <;> decide

/-- C6, amended: for agent length at least 1, `free_room(start)` returns a
value in [0, 1]; it is 0 exactly when the start cell is blocked (the flood
fill yields nothing), and strictly positive when the start is open. -/
theorem c6_free_room_range :
    ∀ (w : World) (len : ℕ) (start : Pos), 1 ≤ len →
    0 ≤ freeRoom w len start ∧ freeRoom w len start ≤ 1 ∧
    (freeRoom w len start = 0 ↔ isBlock w start = true) ∧
    (isBlock w start = false → 0 < freeRoom w len start) := by
  intro w len start hlen
  refine ⟨freeRoom_nonneg w len start, freeRoom_le_one w len start hlen, ?_, ?_⟩
  · unfold freeRoom
    by_cases h : len ≤ (floodList w start).length
    · rw [if_pos h]
      constructor
      · intro h1
        exact absurd h1 one_ne_zero
      · intro hb
        exfalso
        rw [← floodList_eq_nil_iff] at hb
        rw [hb] at h
        simp only [List.length_nil, Nat.le_zero] at h
        omega
    · rw [if_neg h, divInt_natCast_eq_div]
      constructor
      · intro h0
        rcases div_eq_zero_iff.mp h0 with h1 | h1
        · have : (floodList w start).length = 0 := by exact_mod_cast h1
          exact floodList_eq_nil_iff.mp (List.length_eq_zero.mp this)
        · exfalso
          have : len = 0 := by exact_mod_cast h1
          omega
      · intro hb
        rw [floodList_eq_nil_iff.mpr hb]
        simp
  · intro hopen
    unfold freeRoom
    by_cases h : len ≤ (floodList w start).length
    · rw [if_pos h]
      norm_num
    · rw [if_neg h, divInt_natCast_eq_div]
      have h1 : 1 ≤ (floodList w start).length := floodList_length_pos_of_open hopen
      apply div_pos
      · exact_mod_cast h1
      · exact_mod_cast hlen

/-- Witness for C6's amended claim at the blocked start of `wStone`. -/
theorem c6_free_room_range_witness :
    (1 : ℕ) ≤ 1 ∧
    (0 ≤ freeRoom wStone 1 ⟨2, 2⟩ ∧ freeRoom wStone 1 ⟨2, 2⟩ ≤ 1 ∧
      (freeRoom wStone 1 ⟨2, 2⟩ = 0 ↔ isBlock wStone ⟨2, 2⟩ = true) ∧
      (isBlock wStone ⟨2, 2⟩ = false → 0 < freeRoom wStone 1 ⟨2, 2⟩)) :=
  ⟨le_refl 1, c6_free_room_range wStone 1 ⟨2, 2⟩ (le_refl 1)⟩

/-- C7: for a fixed snapshot and start, `reachable_fraction(start, limit)`
is monotonically non-decreasing as the limit decreases, and equals exactly
1.0 whenever the limit is at most the true number of open cells reachable
from the start by 4-connected flood fill (any finite enumeration `S` of the
reachable-open-cell set). -/
theorem c7_free_room_monotone_full :
    ∀ (w : World) (start : Pos),
    (∀ l1 l2 : ℕ, 1 ≤ l1 → l1 ≤ l2 → freeRoom w l2 start ≤ freeRoom w l1 start) ∧
    (∀ S : Finset Pos, (∀ q, q ∈ S ↔ OpenReach w start q) →
      ∀ l : ℕ, 1 ≤ l → l ≤ S.card → freeRoom w l start = 1) := by
  intro w start
  constructor
  · intro l1 l2 h1 hle
    unfold freeRoom
    by_cases ha : l2 ≤ (floodList w start).length
    · rw [if_pos ha, if_pos (le_trans hle ha)]
    · rw [if_neg ha, divInt_natCast_eq_div]
      have hl1 : (0 : ℚ) < l1 := by exact_mod_cast Nat.lt_of_lt_of_le Nat.zero_lt_one h1
      have hl2 : (0 : ℚ) < l2 := lt_of_lt_of_le hl1 (by exact_mod_cast hle)
      by_cases hb : l1 ≤ (floodList w start).length
      · rw [if_pos hb]
        rw [div_le_one hl2]
        exact_mod_cast Nat.le_of_lt (Nat.lt_of_not_le ha)
      · rw [if_neg hb, divInt_natCast_eq_div]
        rw [div_le_div_iff₀ hl2 hl1]
        apply mul_le_mul_of_nonneg_left (by exact_mod_cast hle) (by positivity)
  · intro S hS l hl hcard
    have hset : S = (floodList w start).toFinset := by
      ext q
      rw [hS q, List.mem_toFinset]
      exact ((floodList_spec w start).2 q).symm
    have hlen : S.card = (floodList w start).length := by
      rw [hset, List.toFinset_card_of_nodup (floodList_spec w start).1]
    rw [hlen] at hcard
    unfold freeRoom
    rw [if_pos hcard]

/-- Witness for C7 on the 1×1 empty world: the reachable set is the single
open cell, and both the monotonicity and the exact-1.0 parts hold there. -/
theorem c7_free_room_monotone_full_witness :
    freeRoom wUnit 2 ⟨0, 0⟩ ≤ freeRoom wUnit 1 ⟨0, 0⟩ ∧
    freeRoom wUnit 1 ⟨0, 0⟩ = 1 := by
  have h := c7_free_room_monotone_full wUnit ⟨0, 0⟩
  refine ⟨h.1 1 2 (le_refl 1) (by decide), ?_⟩
  apply h.2 ((floodList wUnit ⟨0, 0⟩).toFinset) ?_ 1 (le_refl 1) ?_
  · intro q
    rw [List.mem_toFinset]
    exact (floodList_spec wUnit ⟨0, 0⟩).2 q
  · decide

/-- C8: when the selected target coincides with the agent's head, the plan
built toward it is empty and the decision (lines 196–204 of
`next_direction`, given that target) returns `backup()`'s result. -/
theorem c8_target_at_head_backup :
    ∀ (w : World) (len : ℕ) (head : Pos) (coin : ℕ → Bool) (ds : List Vec) (t : Pos),
    t = head →
    getTo w len head coin t = PlanResult.plan [] [] ∧
    afterTarget w len head coin ds t = backup w len head ds := by
  intro w len head coin ds t ht
  subst ht
  have hgt : getTo w len t coin t = PlanResult.plan [] [] := by
    unfold getTo
    exact getToAux_done w len coin t (w.SIZE_X * w.SIZE_Y) t [] [] rfl
  refine ⟨hgt, ?_⟩
  unfold afterTarget
  rw [hgt]

/-- Witness for C8 at a concrete snapshot. -/
theorem c8_target_at_head_backup_witness :
    getTo wOpen 1 ⟨0, 0⟩ (fun _ => true) ⟨0, 0⟩ = PlanResult.plan [] [] ∧
    afterTarget wOpen 1 ⟨0, 0⟩ (fun _ => true) DIRECTIONS ⟨0, 0⟩ =
      backup wOpen 1 ⟨0, 0⟩ DIRECTIONS :=
  c8_target_at_head_backup wOpen 1 ⟨0, 0⟩ (fun _ => true) DIRECTIONS ⟨0, 0⟩ rfl

/-- C10: the planner's loop terminates: with fuel `SIZE_X * SIZE_Y + 1` the
fuel is never exhausted (each iteration either raises or appends a fresh
in-bounds coordinate), and any produced plan is duplicate-free, in bounds,
and of length at most `SIZE_X * SIZE_Y`. -/
theorem c10_get_to_terminates :
    ∀ (w : World) (len : ℕ) (head : Pos) (coin : ℕ → Bool) (target : Pos),
    getTo w len head coin target ≠ PlanResult.outOfFuel ∧
    ∀ ps ds, getTo w len head coin target = PlanResult.plan ps ds →
      ps.Nodup ∧ (∀ p ∈ ps, inBoundsP w p) ∧ ps.length ≤ w.SIZE_X * w.SIZE_Y := by
  intro w len head coin target
  refine ⟨getTo_not_outOfFuel w len head coin target, ?_⟩
  intro ps ds h
  unfold getTo at h
  have hinv := getToAux_invariant w len coin target head (w.SIZE_X * w.SIZE_Y + 1)
    head [] [] List.nodup_nil
    (by intro p hp; exact absurd hp (List.not_mem_nil p))
    (List.chain'_singleton head) (by simp) h
  obtain ⟨hnd, hopen, _⟩ := hinv
  refine ⟨hnd, fun p hp => inBoundsP_of_isBlock_false (hopen p hp), ?_⟩
  have hsub : ps.toFinset ⊆ boundsF w := fun p hp =>
    mem_boundsF.mpr (inBoundsP_of_isBlock_false (hopen p (List.mem_toFinset.mp hp)))
  have hle := Finset.card_le_card hsub
  rw [List.toFinset_card_of_nodup hnd, card_boundsF] at hle
  exact hle

/-- Witness for C10 at a concrete snapshot. -/
theorem c10_get_to_terminates_witness :
    getTo wOpen 1 ⟨0, 0⟩ (fun _ => false) ⟨1, 0⟩ ≠ PlanResult.outOfFuel ∧
    (([⟨1, 0⟩] : List Pos).Nodup ∧ (∀ p ∈ ([⟨1, 0⟩] : List Pos), inBoundsP wOpen p) ∧
      ([⟨1, 0⟩] : List Pos).length ≤ wOpen.SIZE_X * wOpen.SIZE_Y) :=
  ⟨(c10_get_to_terminates wOpen 1 ⟨0, 0⟩ (fun _ => false) ⟨1, 0⟩).1,
    (c10_get_to_terminates wOpen 1 ⟨0, 0⟩ (fun _ => false) ⟨1, 0⟩).2
      [⟨1, 0⟩] [RIGHT] (by decide)⟩

/-- C9: on the 10×10 grid that is empty except for the agent's head at
(5,5) (length 1) and a reward digit 9 at (5,2), the planner produces
exactly the 3-step plan (5,4), (5,3), (5,2) with direction up at every
step, and the decision cycle returns up — whatever the random draws. -/
theorem c9_scenario_straight_up :
    ∀ (coin : ℕ → Bool) (ds : List Vec),
    getPosition w9 0 = ⟨⟨5, 5⟩, ⟨0, 0⟩, [⟨5, 5⟩], 1⟩ ∧
    findBest w9 ⟨5, 5⟩ = Except.ok (some ⟨5, 2⟩) ∧
    getTo w9 1 ⟨5, 5⟩ coin ⟨5, 2⟩ =
      PlanResult.plan [⟨5, 4⟩, ⟨5, 3⟩, ⟨5, 2⟩] [UP, UP, UP] ∧
    nextDirection w9 0 coin ds = Except.ok (some UP) := by
  intro coin ds
  have hst : getPosition w9 0 = ⟨⟨5, 5⟩, ⟨0, 0⟩, [⟨5, 5⟩], 1⟩ := by decide
  have hfb : findBest w9 ⟨5, 5⟩ = Except.ok (some ⟨5, 2⟩) := by decide
  have h54 : accepts w9 1 [] ⟨5, 4⟩ = true :=
    accepts_iff.mpr ⟨by decide, by decide,
      le_of_eq (freeRoom_of_open_len_one (by decide)).symm⟩
  have h53 : accepts w9 1 [⟨5, 4⟩] ⟨5, 3⟩ = true :=
    accepts_iff.mpr ⟨by decide, by decide,
      le_of_eq (freeRoom_of_open_len_one (by decide)).symm⟩
  have h52 : accepts w9 1 [⟨5, 4⟩, ⟨5, 3⟩] ⟨5, 2⟩ = true :=
    accepts_iff.mpr ⟨by decide, by decide,
      le_of_eq (freeRoom_of_open_len_one (by decide)).symm⟩
  have hgt : getTo w9 1 ⟨5, 5⟩ coin ⟨5, 2⟩ =
      PlanResult.plan [⟨5, 4⟩, ⟨5, 3⟩, ⟨5, 2⟩] [UP, UP, UP] := by
    unfold getTo
    rw [(by decide : w9.SIZE_X * w9.SIZE_Y + 1 = 100 + 1)]
    rw [getToAux_step w9 1 coin ⟨5, 2⟩ 100 ⟨5, 5⟩ ⟨5, 4⟩ [] [] UP
      (by decide) (by decide) (by decide) h54]
    simp only [List.nil_append]
    rw [(by decide : (100 : ℕ) = 99 + 1)]
    rw [getToAux_step w9 1 coin ⟨5, 2⟩ 99 ⟨5, 4⟩ ⟨5, 3⟩ [⟨5, 4⟩] [UP] UP
      (by decide) (by decide) (by decide) h53]
    simp only [List.singleton_append, List.cons_append, List.nil_append]
    rw [(by decide : (99 : ℕ) = 98 + 1)]
    rw [getToAux_step w9 1 coin ⟨5, 2⟩ 98 ⟨5, 3⟩ ⟨5, 2⟩ [⟨5, 4⟩, ⟨5, 3⟩] [UP, UP] UP
      (by decide) (by decide) (by decide) h52]
    simp only [List.singleton_append, List.cons_append, List.nil_append]
    rw [(by decide : (98 : ℕ) = 97 + 1)]
    exact getToAux_done w9 1 coin ⟨5, 2⟩ 97 ⟨5, 2⟩ _ _ rfl
  refine ⟨hst, hfb, hgt, ?_⟩
  have hnd : nextDirection w9 0 coin ds =
      Except.ok (afterTarget w9 1 ⟨5, 5⟩ coin ds ⟨5, 2⟩) := by
    unfold nextDirection
    rw [hst]
    rw [show (⟨⟨5, 5⟩, ⟨0, 0⟩, [⟨5, 5⟩], 1⟩ : AgentState).head = ⟨5, 5⟩ from rfl]
    rw [hfb]
  rw [hnd]
  unfold afterTarget
  rw [hgt]

end Snakepit
